import Mathlib

/-!
Verification of the MOOZ conferencing system (relay server + client network
layer) against its natural-language specification.

Bytes are modelled as `Nat` (values 0–255 in practice).  Python `bytes`
values become `List Nat`; Python `dict`s become association lists with
unique keys; Python `int` becomes `Int` where negative values can occur.

The embedded functions mirror, statement by statement:
  * `ConferenceServer.handle_client`'s inner demultiplexer loop (server.py),
  * `TCPReceiver.run` / `process_command` / `FileReceiverWorker.write_chunk`
    (client_network.py),
  * `ConferenceServer.handle_file_transfer` (server.py),
  * registration / `remove_client` / `broadcast` over the registry (server.py),
  * `ConferenceServer.udp_listener` (server.py),
  * `MediaReceiver.run`'s per-packet quality-metric update (client_network.py).
-/

namespace Mooz

/-- ASCII code of `:` — the field delimiter of the wire protocol. -/
def colonB : Nat := 58

/-- ASCII code of `\n` — the line terminator of line-mode commands. -/
def nlB : Nat := 10

/-- Split a byte list at the first occurrence of byte `c`: returns the part
before and the part after that occurrence (the occurrence itself dropped).
Meaningful when `c ∈ l`; mirrors Python `l.partition(c)` under that guard. -/
def splitAtFirst (c : Nat) : List Nat → List Nat × List Nat
  | [] => ([], [])
  | x :: xs =>
    if x = c then ([], xs)
    else
      let p := splitAtFirst c xs
      (x :: p.1, p.2)

/-- Python slice `l[:n]` for an `Int` index `n` (negative indices count from
the end, the result clamped to the list). -/
def pyTake (n : Int) (l : List Nat) : List Nat :=
  if 0 ≤ n then l.take n.toNat else l.take (l.length - (-n).toNat)

/-- Python slice `l[n:]` for an `Int` index `n` (negative indices count from
the end, the result clamped to the list). -/
def pyDrop (n : Int) (l : List Nat) : List Nat :=
  if 0 ≤ n then l.drop n.toNat else l.drop (l.length - (-n).toNat)

/-- Is the byte an ASCII decimal digit? -/
def isDigitB (d : Nat) : Bool := 48 ≤ d && d ≤ 57

/-- Value of a most-significant-digit-first ASCII digit string, when every
byte is a digit and the string is nonempty. -/
def digitsVal? (l : List Nat) : Option Nat :=
  if l ≠ [] ∧ l.all isDigitB then some (l.foldl (fun a d => 10 * a + (d - 48)) 0)
  else none

/-- Python `int(bytes.decode('utf-8'))` wrapped in a handler for
`ValueError`/`UnicodeDecodeError`, as used for SCRN length fields: an
optional ASCII sign followed by a nonempty run of ASCII digits parses,
everything else (including bytes ≥ 0x80, which either fail to decode or
decode to non-digit characters) yields `none`.  CPython's tolerance for
surrounding whitespace and `_` digit grouping is not modelled; no claim
exercises those forms. -/
def pyIntBytes : List Nat → Option Int
  | [] => none
  | d :: rest =>
    if d = 45 then (digitsVal? rest).map (fun n => -(n : Int))
    else if d = 43 then (digitsVal? rest).map (fun n => (n : Int))
    else (digitsVal? (d :: rest)).map (fun n => (n : Int))

/-- One step of decimal printing, accumulator style (fuel-driven so that the
function evaluates by kernel reduction). -/
def natDigitsGo : Nat → Nat → List Nat → List Nat
  | 0, _, acc => acc
  | _ + 1, 0, acc => acc
  | fuel + 1, n, acc => natDigitsGo fuel (n / 10) ((48 + n % 10) :: acc)

/-- ASCII decimal digits of `n`, most significant first (Python `str(n)` for
a nonnegative `n`). -/
def natDigits (n : Nat) : List Nat :=
  if n = 0 then [48] else natDigitsGo n n []

/-- Python `bytes.decode('utf-8', errors='ignore')`, kept as a byte list:
bytes below 0x80 survive, bytes at or above 0x80 are dropped.  (CPython
drops invalid sequences; valid multi-byte sequences decode to non-ASCII
characters, which can never equal the all-ASCII command names the
demultiplexer compares against, so dropping them is observationally
equivalent on every comparison the code performs.) -/
def decodeIgnore (l : List Nat) : List Nat := l.filter (fun b => b < 128)

/-- A frame emitted by the demultiplexer: a dispatched line-mode command
(`command` holds the decoded header bytes, `payload` the raw bytes between
the first `:` and the terminating newline) or one SCRN binary subframe. -/
inductive Frame where
  | line (cmd : List Nat) (payload : List Nat)
  | scrn (content : List Nat)
  deriving DecidableEq

/-- Byte lists of the server's line-mode command names
`("MSG", "PING", "SCRN_START", "SCRN_STOP", "FILE_INIT")`. -/
def serverLineCmds : List (List Nat) :=
  [[77, 83, 71],
   [80, 73, 78, 71],
   [83, 67, 82, 78, 95, 83, 84, 65, 82, 84],
   [83, 67, 82, 78, 95, 83, 84, 79, 80],
   [70, 73, 76, 69, 95, 73, 78, 73, 84]]

/-- Byte list of `"SCRN"`. -/
def scrnCmd : List Nat := [83, 67, 82, 78]

/-- Result of one iteration of the server's inner parse loop: suspend
(`break` with the buffer kept for more bytes), discard (`buffer = b""` then
`break` — the desync-recovery / unknown-command path), or emit one frame and
continue on the remaining buffer. -/
inductive StepR where
  | suspend
  | discard
  | emit (f : Frame) (rest : List Nat)
  deriving DecidableEq

/-- One iteration of the inner `while True` loop of
`ConferenceServer.handle_client` (server.py lines 122–147), acting on the
current buffer. -/
def serverParseStep (b : List Nat) : StepR :=
  if colonB ∈ b then
    let hr := splitAtFirst colonB b
    let command := decodeIgnore hr.1
    if command ∈ serverLineCmds then
      if nlB ∈ hr.2 then
        let pb := splitAtFirst nlB hr.2
        .emit (.line command pb.1) pb.2
      else .suspend
    else if command = scrnCmd then
      if colonB ∈ hr.2 then
        let sd := splitAtFirst colonB hr.2
        match pyIntBytes sd.1 with
        | none => .discard
        | some n =>
          if n ≤ (sd.2.length : Int) then .emit (.scrn (pyTake n sd.2)) (pyDrop n sd.2)
          else .suspend
      else .suspend
    else .discard
  else .suspend

/-- The inner `while True` loop run to completion on a buffer, fuel-driven
(each emitted frame strictly shrinks the buffer, so fuel `b.length + 1`
always suffices — `serverDrain` below).  Returns the emitted frames in
order and the buffer left for the next `recv`. -/
def serverDrainF : Nat → List Nat → List Frame × List Nat
  | 0, b => ([], b)
  | fuel + 1, b =>
    match serverParseStep b with
    | .suspend => ([], b)
    | .discard => ([], [])
    | .emit f rest =>
      let r := serverDrainF fuel rest
      (f :: r.1, r.2)

/-- The inner parse loop of `ConferenceServer.handle_client` run to
completion on a buffer. -/
def serverDrain (b : List Nat) : List Frame × List Nat :=
  serverDrainF (b.length + 1) b

/-- Effect of one `conn.recv` delivering `chunk` in the outer loop: append
to the buffer, then drain. -/
def serverFeed (st : List Frame × List Nat) (chunk : List Nat) : List Frame × List Nat :=
  let d := serverDrain (st.2 ++ chunk)
  (st.1 ++ d.1, d.2)

/-- The server-side demultiplexer fed a sequence of received chunks,
starting from an empty buffer: all emitted frames plus the final buffer. -/
def serverDemux (chunks : List (List Nat)) : List Frame × List Nat :=
  chunks.foldl serverFeed ([], [])

/-! ### The framing grammar

Encodings of complete well-formed frames and the suspending partial buffers
between frame boundaries, used to state chunk-boundary invariance. -/

/-- Wire encoding of a frame: a line-mode command is `cmd:payload\n`; a SCRN
subframe is `SCRN:<decimal length>:<bytes>`. -/
def encFrame : Frame → List Nat
  | .line cmd payload => cmd ++ colonB :: (payload ++ [nlB])
  | .scrn content => scrnCmd ++ colonB :: (natDigits content.length ++ colonB :: content)

/-- A frame the grammar admits: a known line-mode command whose payload
holds no newline, or any SCRN subframe. -/
def Valid1 : Frame → Prop
  | .line cmd payload => cmd ∈ serverLineCmds ∧ nlB ∉ payload
  | .scrn _ => True

/-- Concatenated encoding of a frame sequence. -/
def encFrames (fs : List Frame) : List Nat := (fs.map encFrame).flatten

/-- A buffer on which the inner parse loop suspends waiting for more bytes:
no field delimiter yet, a known command without its newline, a SCRN header
without its second colon, or a SCRN header whose body is still short. -/
def PartialBuf (q : List Nat) : Prop :=
  colonB ∉ q
  ∨ (∃ cmd t, cmd ∈ serverLineCmds ∧ q = cmd ++ colonB :: t ∧ nlB ∉ t)
  ∨ (∃ t, q = scrnCmd ++ colonB :: t ∧ colonB ∉ t)
  ∨ (∃ ds c n, q = scrnCmd ++ colonB :: (ds ++ colonB :: c) ∧ colonB ∉ ds ∧
       pyIntBytes ds = some n ∧ (c.length : Int) < n)

/-! ### Byte-level utility lemmas -/

theorem splitAtFirst_spec (c : Nat) (pre post : List Nat) (h : c ∉ pre) :
    splitAtFirst c (pre ++ c :: post) = (pre, post) := by
  induction pre with
  | nil => simp [splitAtFirst]
  | cons x xs ih =>
    simp only [List.mem_cons, not_or] at h
    simp [splitAtFirst, Ne.symm (h.1), ih h.2]

theorem splitAtFirst_snd_lt (c : Nat) (l : List Nat) (h : c ∈ l) :
    (splitAtFirst c l).2.length < l.length := by
  induction l with
  | nil => cases h
  | cons x xs ih =>
    by_cases hx : x = c
    · simp [splitAtFirst, hx]
    · have hm : c ∈ xs := by
        rcases List.mem_cons.1 h with h1 | h1
        · exact absurd h1.symm hx
        · exact h1
      simp only [splitAtFirst, if_neg hx]
      exact Nat.lt_succ_of_lt (ih hm)

theorem pyDrop_length_le (n : Int) (l : List Nat) : (pyDrop n l).length ≤ l.length := by
  unfold pyDrop
  split <;> simp

theorem pyTake_coe (n : Nat) (l : List Nat) : pyTake (n : Int) l = l.take n := by
  simp [pyTake]

theorem pyDrop_coe (n : Nat) (l : List Nat) : pyDrop (n : Int) l = l.drop n := by
  simp [pyDrop]

/-- Decimal digit list of a positive number, by well-founded recursion; a
proof-side mirror of `natDigitsGo`. -/
def digitsRep : Nat → List Nat
  | 0 => []
  | n + 1 => digitsRep ((n + 1) / 10) ++ [48 + (n + 1) % 10]
  decreasing_by exact Nat.div_lt_self (Nat.succ_pos _) (by norm_num)

theorem natDigitsGo_eq_digitsRep (fuel : Nat) :
    ∀ n acc, n ≤ fuel → natDigitsGo fuel n acc = digitsRep n ++ acc := by
  induction fuel with
  | zero =>
    intro n acc h
    interval_cases n
    simp [natDigitsGo, digitsRep]
  | succ fuel ih =>
    intro n acc h
    match n with
    | 0 => simp [natDigitsGo, digitsRep]
    | m + 1 =>
      have hdiv : (m + 1) / 10 ≤ fuel :=
        Nat.le_of_lt_succ (lt_of_lt_of_le (Nat.div_lt_self (Nat.succ_pos _) (by norm_num)) h)
      rw [show natDigitsGo (fuel + 1) (m + 1) acc
            = natDigitsGo fuel ((m + 1) / 10) ((48 + (m + 1) % 10) :: acc) from rfl,
          ih _ _ hdiv, digitsRep]
      simp

theorem digitsRep_all_digits (n : Nat) : ∀ d ∈ digitsRep n, isDigitB d = true := by
  induction n using Nat.strong_induction_on with
  | _ n ih =>
    match n with
    | 0 => simp [digitsRep]
    | m + 1 =>
      intro d hd
      rw [digitsRep] at hd
      rcases List.mem_append.1 hd with h | h
      · exact ih _ (Nat.div_lt_self (Nat.succ_pos _) (by norm_num)) d h
      · simp only [List.mem_singleton] at h
        subst h
        have := Nat.mod_lt m (y := 10) (by norm_num)
        simp [isDigitB]
        omega

theorem digitsRep_foldl (n : Nat) (hn : n ≠ 0) : ∀ a : Nat,
    (digitsRep n).foldl (fun a d => 10 * a + (d - 48)) a
      = a * 10 ^ (digitsRep n).length + n := by
  induction n using Nat.strong_induction_on with
  | _ n ih =>
    match n with
    | 0 => exact absurd rfl hn
    | m + 1 =>
      intro a
      rw [digitsRep, List.foldl_append]
      by_cases hq : (m + 1) / 10 = 0
      · have hlt : m + 1 < 10 := by omega
        rw [hq]
        simp [digitsRep]
        omega
      · rw [ih _ (Nat.div_lt_self (Nat.succ_pos _) (by norm_num)) hq]
        simp only [List.foldl_cons, List.foldl_nil, List.length_append,
          List.length_singleton]
        have h48 : 48 + (m + 1) % 10 - 48 = (m + 1) % 10 := by omega
        rw [h48, pow_succ]
        have := Nat.div_add_mod (m + 1) 10
        ring_nf
        omega

theorem digitsRep_ne_nil (n : Nat) (hn : n ≠ 0) : digitsRep n ≠ [] := by
  match n with
  | 0 => exact absurd rfl hn
  | m + 1 => rw [digitsRep]; simp

theorem natDigits_eq (n : Nat) (hn : n ≠ 0) : natDigits n = digitsRep n := by
  rw [natDigits, if_neg hn, natDigitsGo_eq_digitsRep n n [] le_rfl, List.append_nil]

theorem natDigits_all_digits (n : Nat) : ∀ d ∈ natDigits n, isDigitB d = true := by
  by_cases hn : n = 0
  · subst hn; simp [natDigits, isDigitB]
  · rw [natDigits_eq n hn]; exact digitsRep_all_digits n

theorem natDigits_no_colon (n : Nat) : colonB ∉ natDigits n := by
  intro h
  have := natDigits_all_digits n colonB h
  simp [isDigitB, colonB] at this

theorem natDigits_no_nl (n : Nat) : nlB ∉ natDigits n := by
  intro h
  have := natDigits_all_digits n nlB h
  simp [isDigitB, nlB] at this

theorem digitsVal?_natDigits (n : Nat) : digitsVal? (natDigits n) = some n := by
  by_cases hn : n = 0
  · subst hn; simp [natDigits, digitsVal?, isDigitB]
  · rw [natDigits_eq n hn, digitsVal?,
      if_pos ⟨digitsRep_ne_nil n hn, List.all_eq_true.2 (digitsRep_all_digits n)⟩,
      digitsRep_foldl n hn 0]
    simp

theorem pyIntBytes_natDigits (n : Nat) : pyIntBytes (natDigits n) = some (n : Int) := by
  have hd := natDigits_all_digits n
  rcases he : natDigits n with _ | ⟨d, rest⟩
  · exact absurd he (by
      by_cases hn : n = 0
      · subst hn; simp [natDigits]
      · rw [natDigits_eq n hn]; exact digitsRep_ne_nil n hn)
  · have hdig : isDigitB d = true := by
      have := hd d; rw [he] at this; exact this (List.mem_cons_self d rest)
    have h45 : d ≠ 45 := by simp [isDigitB] at hdig; omega
    have h43 : d ≠ 43 := by simp [isDigitB] at hdig; omega
    rw [pyIntBytes, if_neg h45, if_neg h43, ← he, digitsVal?_natDigits n]
    rfl

/-! ### Parse-step lemmas -/

theorem serverCmd_facts : ∀ c ∈ serverLineCmds, colonB ∉ c ∧ nlB ∉ c ∧ decodeIgnore c = c := by
  decide

theorem scrnCmd_facts :
    colonB ∉ scrnCmd ∧ nlB ∉ scrnCmd ∧ decodeIgnore scrnCmd = scrnCmd ∧
      scrnCmd ∉ serverLineCmds := by
  decide

theorem parseStep_suspends (q : List Nat) (h : PartialBuf q) :
    serverParseStep q = .suspend := by
  rcases h with h | ⟨cmd, t, hc, rfl, hnl⟩ | ⟨t, rfl, hc⟩ | ⟨ds, c, n, rfl, hds, hn, hlen⟩
  · simp [serverParseStep, h]
  · obtain ⟨hc1, _, hc3⟩ := serverCmd_facts cmd hc
    simp [serverParseStep, splitAtFirst_spec colonB cmd t hc1, hc3, hc, hnl]
  · obtain ⟨hs1, _, hs3, hs4⟩ := scrnCmd_facts
    simp [serverParseStep, splitAtFirst_spec colonB scrnCmd t hs1, hs3, hs4, hc]
  · obtain ⟨hs1, _, hs3, hs4⟩ := scrnCmd_facts
    simp [serverParseStep, splitAtFirst_spec colonB scrnCmd _ hs1, hs3, hs4,
      splitAtFirst_spec colonB ds c hds, hn]
    exact hlen

theorem parseStep_enc (f : Frame) (hf : Valid1 f) (rest : List Nat) :
    serverParseStep (encFrame f ++ rest) = .emit f rest := by
  cases f with
  | line cmd payload =>
    obtain ⟨hc, hnl⟩ := hf
    obtain ⟨hc1, _, hc3⟩ := serverCmd_facts cmd hc
    have he : encFrame (.line cmd payload) ++ rest
        = cmd ++ colonB :: (payload ++ nlB :: rest) := by
      simp [encFrame]
    rw [he]
    have hnl2 : nlB ∈ payload ++ nlB :: rest := by simp
    simp [serverParseStep, splitAtFirst_spec colonB cmd _ hc1, hc3, hc, hnl2,
      splitAtFirst_spec nlB payload rest hnl]
  | scrn content =>
    obtain ⟨hs1, _, hs3, hs4⟩ := scrnCmd_facts
    have he : encFrame (.scrn content) ++ rest
        = scrnCmd ++ colonB :: (natDigits content.length ++ colonB :: (content ++ rest)) := by
      simp [encFrame]
    rw [he]
    simp [serverParseStep, splitAtFirst_spec colonB scrnCmd _ hs1, hs3, hs4,
      splitAtFirst_spec colonB (natDigits content.length) _ (natDigits_no_colon _),
      pyIntBytes_natDigits]
    constructor
    · rw [pyTake_coe]
      exact List.take_left content rest
    · rw [pyDrop_coe]
      exact List.drop_left content rest

theorem parseStep_emit_lt {b : List Nat} {f : Frame} {rest : List Nat}
    (h : serverParseStep b = .emit f rest) : rest.length < b.length := by
  simp only [serverParseStep] at h
  split at h
  case isFalse => simp at h
  case isTrue hmem =>
    have hcol := splitAtFirst_snd_lt colonB b hmem
    split at h
    · split at h
      case isTrue hnl =>
        have hlt2 := splitAtFirst_snd_lt nlB _ hnl
        rw [StepR.emit.injEq] at h
        obtain ⟨h1, h2⟩ := h
        subst h2
        omega
      case isFalse => simp at h
    · split at h
      · split at h
        case isTrue hcol2 =>
          have hc2 := splitAtFirst_snd_lt colonB _ hcol2
          split at h
          · simp at h
          · split at h
            case isTrue =>
              rw [StepR.emit.injEq] at h
              obtain ⟨h1, h2⟩ := h
              subst h2
              exact lt_of_le_of_lt (pyDrop_length_le _ _) (by omega)
            case isFalse => simp at h
        case isFalse => simp at h
      · simp at h

theorem serverDrainF_congr : ∀ fuel₁ fuel₂ : Nat, ∀ b : List Nat,
    b.length < fuel₁ → b.length < fuel₂ → serverDrainF fuel₁ b = serverDrainF fuel₂ b := by
  intro fuel₁
  induction fuel₁ with
  | zero => intro fuel₂ b h₁ _; omega
  | succ f ih =>
    intro fuel₂ b h₁ h₂
    cases fuel₂ with
    | zero => omega
    | succ f₂ =>
      rw [serverDrainF, serverDrainF]
      cases hs : serverParseStep b with
      | suspend => rfl
      | discard => rfl
      | emit fr rest =>
        have hlt := parseStep_emit_lt hs
        simp only
        rw [ih f₂ rest (by omega) (by omega)]

theorem serverDrain_suspend (b : List Nat) (h : serverParseStep b = .suspend) :
    serverDrain b = ([], b) := by
  rw [serverDrain, serverDrainF, h]

theorem serverDrain_discard (b : List Nat) (h : serverParseStep b = .discard) :
    serverDrain b = ([], []) := by
  rw [serverDrain, serverDrainF, h]

theorem serverDrain_emit (b : List Nat) (f : Frame) (rest : List Nat)
    (h : serverParseStep b = .emit f rest) :
    serverDrain b = (f :: (serverDrain rest).1, (serverDrain rest).2) := by
  have hlt := parseStep_emit_lt h
  rw [serverDrain, serverDrainF, h]
  show (f :: (serverDrainF b.length rest).1, (serverDrainF b.length rest).2) = _
  rw [serverDrainF_congr b.length (rest.length + 1) rest (by omega) (by omega)]
  rfl

/-! ### Grammar-level lemmas -/

theorem encFrames_nil : encFrames [] = [] := rfl

theorem encFrames_cons (f : Frame) (fs : List Frame) :
    encFrames (f :: fs) = encFrame f ++ encFrames fs := by
  simp [encFrames]

theorem encFrames_append (a b : List Frame) :
    encFrames (a ++ b) = encFrames a ++ encFrames b := by
  simp [encFrames]

theorem serverDrain_encFrames (fs : List Frame) (hfs : ∀ f ∈ fs, Valid1 f)
    (p : List Nat) (hp : PartialBuf p) :
    serverDrain (encFrames fs ++ p) = (fs, p) := by
  induction fs with
  | nil =>
    rw [encFrames_nil, List.nil_append]
    exact serverDrain_suspend p (parseStep_suspends p hp)
  | cons f fs ih =>
    have he : encFrames (f :: fs) ++ p = encFrame f ++ (encFrames fs ++ p) := by
      rw [encFrames_cons, List.append_assoc]
    rw [he, serverDrain_emit _ f _ (parseStep_enc f (hfs f (by simp)) _),
      ih (fun g hg => hfs g (by simp [hg]))]

theorem prefix_append_split {x a b : List Nat} (h : x <+: a ++ b) :
    x <+: a ∨ ∃ x', x = a ++ x' ∧ x' <+: b := by
  induction a generalizing x with
  | nil => exact Or.inr ⟨x, rfl, by simpa using h⟩
  | cons hd tl ih =>
    cases x with
    | nil => exact Or.inl (List.nil_prefix)
    | cons y ys =>
      obtain ⟨t, ht⟩ := h
      rw [List.cons_append, List.cons_append] at ht
      injection ht with h1 h2
      subst h1
      rcases ih ⟨t, h2⟩ with h3 | ⟨x', rfl, h4⟩
      · exact Or.inl (List.cons_prefix_cons.mpr ⟨rfl, h3⟩)
      · exact Or.inr ⟨x', by simp, h4⟩

theorem prefix_singleton {x : List Nat} {a : Nat} (h : x <+: [a]) :
    x = [] ∨ x = [a] := by
  cases x with
  | nil => exact Or.inl rfl
  | cons y ys =>
    obtain ⟨t, ht⟩ := h
    rw [List.cons_append] at ht
    injection ht with h1 h2
    subst h1
    have : ys = [] := by
      cases ys with
      | nil => rfl
      | cons z zs => simp at h2
    simp [this]

theorem noColonOfPre {x l : List Nat} (h : x <+: l) (hl : colonB ∉ l) :
    colonB ∉ x := fun hc => hl (h.sublist.subset hc)

theorem noNlOfPre {x l : List Nat} (h : x <+: l) (hl : nlB ∉ l) :
    nlB ∉ x := fun hc => hl (h.sublist.subset hc)

theorem partialBuf_mono {p x : List Nat} (hp : PartialBuf p) (hx : x <+: p) :
    PartialBuf x := by
  rcases hp with h | ⟨cmd, t, hc, rfl, hnl⟩ | ⟨t, rfl, hc⟩ | ⟨ds, c, n, rfl, hds, hn, hlen⟩
  · exact Or.inl (noColonOfPre hx h)
  · obtain ⟨hc1, _, _⟩ := serverCmd_facts cmd hc
    rcases prefix_append_split hx with h | ⟨x', rfl, h⟩
    · exact Or.inl (noColonOfPre h hc1)
    · cases x' with
      | nil => exact Or.inl (by simpa using hc1)
      | cons y ys =>
        obtain ⟨rfl, hys⟩ := List.cons_prefix_cons.mp h
        exact Or.inr (Or.inl ⟨cmd, ys, hc, rfl, noNlOfPre hys hnl⟩)
  · obtain ⟨hs1, _, _, _⟩ := scrnCmd_facts
    rcases prefix_append_split hx with h | ⟨x', rfl, h⟩
    · exact Or.inl (noColonOfPre h hs1)
    · cases x' with
      | nil => exact Or.inl (by simpa using hs1)
      | cons y ys =>
        obtain ⟨rfl, hys⟩ := List.cons_prefix_cons.mp h
        exact Or.inr (Or.inr (Or.inl ⟨ys, rfl, noColonOfPre hys hc⟩))
  · obtain ⟨hs1, _, _, _⟩ := scrnCmd_facts
    rcases prefix_append_split hx with h | ⟨x', rfl, h⟩
    · exact Or.inl (noColonOfPre h hs1)
    · cases x' with
      | nil => exact Or.inl (by simpa using hs1)
      | cons y ys =>
        obtain ⟨rfl, hys⟩ := List.cons_prefix_cons.mp h
        rcases prefix_append_split hys with h2 | ⟨ys', rfl, h2⟩
        · exact Or.inr (Or.inr (Or.inl ⟨ys, rfl, noColonOfPre h2 hds⟩))
        · cases ys' with
          | nil => exact Or.inr (Or.inr (Or.inl ⟨ds, by simp, hds⟩))
          | cons z zs =>
            obtain ⟨rfl, hzs⟩ := List.cons_prefix_cons.mp h2
            refine Or.inr (Or.inr (Or.inr ⟨ds, zs, n, rfl, hds, hn, ?_⟩))
            have := hzs.length_le
            omega

theorem partialBuf_of_properPre (f : Frame) (hf : Valid1 f) {x : List Nat}
    (hx : x <+: encFrame f) (hne : x ≠ encFrame f) : PartialBuf x := by
  cases f with
  | line cmd payload =>
    obtain ⟨hc, hnl⟩ := hf
    obtain ⟨hc1, hc2, _⟩ := serverCmd_facts cmd hc
    rw [show encFrame (.line cmd payload) = cmd ++ colonB :: (payload ++ [nlB]) from rfl] at hx hne
    rcases prefix_append_split hx with h | ⟨x', rfl, h⟩
    · exact Or.inl (noColonOfPre h hc1)
    · cases x' with
      | nil => exact Or.inl (by simpa using hc1)
      | cons y ys =>
        obtain ⟨rfl, hys⟩ := List.cons_prefix_cons.mp h
        rcases prefix_append_split hys with h2 | ⟨ys', rfl, h2⟩
        · exact Or.inr (Or.inl ⟨cmd, ys, hc, rfl, noNlOfPre h2 hnl⟩)
        · rcases prefix_singleton h2 with rfl | rfl
          · exact Or.inr (Or.inl ⟨cmd, payload ++ [], hc, rfl, by simpa using hnl⟩)
          · exact absurd rfl hne
  | scrn content =>
    obtain ⟨hs1, _, _, _⟩ := scrnCmd_facts
    rw [show encFrame (.scrn content)
        = scrnCmd ++ colonB :: (natDigits content.length ++ colonB :: content) from rfl]
      at hx hne
    rcases prefix_append_split hx with h | ⟨x', rfl, h⟩
    · exact Or.inl (noColonOfPre h hs1)
    · cases x' with
      | nil => exact Or.inl (by simpa using hs1)
      | cons y ys =>
        obtain ⟨rfl, hys⟩ := List.cons_prefix_cons.mp h
        rcases prefix_append_split hys with h2 | ⟨ys', rfl, h2⟩
        · exact Or.inr (Or.inr (Or.inl ⟨ys, rfl,
            noColonOfPre h2 (natDigits_no_colon _)⟩))
        · cases ys' with
          | nil => exact Or.inr (Or.inr (Or.inl ⟨natDigits content.length, by simp,
              natDigits_no_colon _⟩))
          | cons z zs =>
            obtain ⟨rfl, hzs⟩ := List.cons_prefix_cons.mp h2
            have hlt : zs.length < content.length := by
              rcases lt_or_eq_of_le hzs.length_le with h3 | h3
              · exact h3
              · exact absurd (by rw [hzs.eq_of_length h3]) hne
            refine Or.inr (Or.inr (Or.inr ⟨natDigits content.length, zs, content.length,
              rfl, natDigits_no_colon _, pyIntBytes_natDigits _, by exact_mod_cast hlt⟩))

theorem stream_prefix_decomp (fs : List Frame) (hfs : ∀ f ∈ fs, Valid1 f)
    (p : List Nat) (hp : PartialBuf p) :
    ∀ x, x <+: encFrames fs ++ p →
      ∃ gs gs' q, fs = gs ++ gs' ∧ x = encFrames gs ++ q ∧ PartialBuf q := by
  induction fs with
  | nil =>
    intro x hx
    exact ⟨[], [], x, rfl, by simp [encFrames_nil],
      partialBuf_mono hp (by simpa [encFrames_nil] using hx)⟩
  | cons f fs ih =>
    intro x hx
    have hx' : x <+: encFrame f ++ (encFrames fs ++ p) := by
      simpa [encFrames_cons, List.append_assoc] using hx
    rcases prefix_append_split hx' with h | ⟨x', rfl, h⟩
    · by_cases he : x = encFrame f
      · exact ⟨[f], fs, [], rfl, by simp [encFrames_cons, encFrames_nil, he],
          Or.inl (by simp)⟩
      · exact ⟨[], f :: fs, x, rfl, by simp [encFrames_nil],
          partialBuf_of_properPre f (hfs f (by simp)) h he⟩
    · obtain ⟨gs, gs', q, h1, h2, h3⟩ := ih (fun g hg => hfs g (by simp [hg])) x' h
      exact ⟨f :: gs, gs', q, by simp [h1], by simp [encFrames_cons, h2, List.append_assoc], h3⟩

theorem foldFeed_spec (chunks : List (List Nat)) :
    ∀ (acc : List Frame) (q : List Nat) (gs' : List Frame) (p : List Nat),
      (∀ f ∈ gs', Valid1 f) → PartialBuf p → PartialBuf q →
      q ++ chunks.flatten = encFrames gs' ++ p →
      chunks.foldl serverFeed (acc, q) = (acc ++ gs', p) := by
  induction chunks with
  | nil =>
    intro acc q gs' p hv hp hq heq
    rw [List.flatten_nil, List.append_nil] at heq
    have h1 := serverDrain_suspend q (parseStep_suspends q hq)
    have h2 := serverDrain_encFrames gs' hv p hp
    rw [heq] at h1
    rw [h1] at h2
    have hg : gs' = [] := (Prod.mk.injEq _ _ _ _ ▸ h2).1.symm
    have hpq : q = p := by
      have := (Prod.mk.injEq _ _ _ _ ▸ h2).2
      rw [heq, hg, encFrames_nil, List.nil_append]
    subst hg
    simp [hpq]
  | cons c cs ih =>
    intro acc q gs' p hv hp hq heq
    have hpre : q ++ c <+: encFrames gs' ++ p := by
      refine ⟨cs.flatten, ?_⟩
      simpa [List.append_assoc] using heq
    obtain ⟨hs, hs', q₂, h1, h2, h3⟩ := stream_prefix_decomp gs' hv p hp (q ++ c) hpre
    have hvhs : ∀ g ∈ hs, Valid1 g := fun g hg => hv g (by simp [h1, hg])
    have hd : serverDrain (q ++ c) = (hs, q₂) := by
      rw [h2]
      exact serverDrain_encFrames hs hvhs q₂ h3
    have hfeed : serverFeed (acc, q) c = (acc ++ hs, q₂) := by
      simp [serverFeed, hd]
    rw [List.foldl_cons, hfeed]
    have hassoc : (encFrames hs ++ q₂) ++ cs.flatten = encFrames hs ++ (encFrames hs' ++ p) := by
      rw [← h2]
      have heq' : (q ++ c) ++ cs.flatten = encFrames hs ++ encFrames hs' ++ p := by
        rw [← encFrames_append, ← h1]
        simpa [List.append_assoc] using heq
      rw [heq', List.append_assoc]
    have hrest : q₂ ++ cs.flatten = encFrames hs' ++ p := by
      have := hassoc
      rw [List.append_assoc] at this
      exact List.append_cancel_left this
    rw [ih (acc ++ hs) q₂ hs' p (fun g hg => hv g (by simp [h1, hg])) hp h3 hrest]
    simp [h1]

/-! ### Claim C1 — chunk-boundary invariance of the demultiplexer -/

/-- Claim C1, counterexample: the claim quantifies over every input byte
sequence and every partition, but the desync-recovery path drops the whole
buffer, which makes frame emission depend on chunk boundaries.  Input
`XX:junk\nMSG:hi\n` split at the newline yields the `MSG` frame, while the
same bytes delivered at once yield no frame at all. -/
theorem C1_chunk_invariance_counterexample :
    serverDemux [[88, 88, 58, 106, 117, 110, 107, 10], [77, 83, 71, 58, 104, 105, 10]]
      = ([Frame.line [77, 83, 71] [104, 105]], []) ∧
    serverDemux [[88, 88, 58, 106, 117, 110, 107, 10] ++ [77, 83, 71, 58, 104, 105, 10]]
      = ([], []) ∧
    serverDemux [[88, 88, 58, 106, 117, 110, 107, 10], [77, 83, 71, 58, 104, 105, 10]]
      ≠ serverDemux [[88, 88, 58, 106, 117, 110, 107, 10] ++ [77, 83, 71, 58, 104, 105, 10]] :=
  ⟨by decide, by decide, by decide⟩

/-- Claim C1, amended: for every input that is a concatenation of
well-formed frames (known line-mode commands with newline-free payloads, or
SCRN blocks with canonical decimal lengths) followed by one suspending
remainder, every partition into chunks emits exactly the frames of that
decomposition — the same as feeding the whole sequence at once — and ends
suspended holding the remainder; moreover a buffer holding a known command
without its terminating newline always suspends, dispatching nothing. -/
theorem C1_chunk_invariance_amended (chunks : List (List Nat)) (fs : List Frame)
    (p : List Nat) (hfs : ∀ f ∈ fs, Valid1 f) (hp : PartialBuf p)
    (h : chunks.flatten = encFrames fs ++ p) :
    serverDemux chunks = (fs, p) ∧
    serverDemux [chunks.flatten] = (fs, p) ∧
    (∀ cmd t, cmd ∈ serverLineCmds → nlB ∉ t →
      serverDrain (cmd ++ colonB :: t) = ([], cmd ++ colonB :: t)) := by
  have hq : PartialBuf ([] : List Nat) := Or.inl (by simp)
  refine ⟨?_, ?_, ?_⟩
  · have := foldFeed_spec chunks [] [] fs p hfs hp hq (by simpa using h)
    simpa [serverDemux] using this
  · have := foldFeed_spec [chunks.flatten] [] [] fs p hfs hp hq (by simpa using h)
    simpa [serverDemux] using this
  · intro cmd t hcmd hnl
    exact serverDrain_suspend _
      (parseStep_suspends _ (Or.inr (Or.inl ⟨cmd, t, hcmd, rfl, hnl⟩)))

/-- Witness for C1's amended theorem: the stream `MSG:hi\nPI` (one complete
`MSG` frame plus the incomplete header `PI`) delivered in two chunks cut
inside both the frame and the remainder. -/
theorem C1_chunk_invariance_witness :
    ((∀ f ∈ [Frame.line [77, 83, 71] [104, 105]], Valid1 f) ∧
      PartialBuf [80, 73] ∧
      [[77, 83, 71, 58], [104, 105, 10, 80, 73]].flatten
        = encFrames [Frame.line [77, 83, 71] [104, 105]] ++ [80, 73]) ∧
    serverDemux [[77, 83, 71, 58], [104, 105, 10, 80, 73]]
      = ([Frame.line [77, 83, 71] [104, 105]], [80, 73]) := by
  have h1 : ∀ f ∈ [Frame.line [77, 83, 71] [104, 105]], Valid1 f := by
    intro f hf
    simp only [List.mem_singleton] at hf
    subst hf
    exact ⟨by decide, by decide⟩
  have h2 : PartialBuf [80, 73] := Or.inl (by decide)
  have h3 : [[77, 83, 71, 58], [104, 105, 10, 80, 73]].flatten
      = encFrames [Frame.line [77, 83, 71] [104, 105]] ++ [80, 73] := by decide
  exact ⟨⟨h1, h2, h3⟩,
    (C1_chunk_invariance_amended [[77, 83, 71, 58], [104, 105, 10, 80, 73]] _ _ h1 h2 h3).1⟩

/-! ### Claim C2 — SCRN length-prefixed framing -/

/-- Claim C2: once a `SCRN` header announcing `L` body bytes has been
parsed, a buffer holding at least `L` body bytes plus arbitrary trailing
bytes makes the parser emit exactly one subframe of exactly the first `L`
body bytes and keep exactly the trailing bytes for the next parse; with
fewer than `L` body bytes buffered it emits nothing and suspends. -/
theorem C2_scrn_framing (L : Nat) (body trailing short : List Nat)
    (hbody : body.length = L) (hshort : short.length < L) :
    serverParseStep (scrnCmd ++ colonB :: (natDigits L ++ colonB :: (body ++ trailing)))
      = .emit (.scrn body) trailing ∧
    serverParseStep (scrnCmd ++ colonB :: (natDigits L ++ colonB :: short)) = .suspend := by
  constructor
  · have h := parseStep_enc (.scrn body) trivial trailing
    rw [show encFrame (.scrn body) ++ trailing
        = scrnCmd ++ colonB :: (natDigits body.length ++ colonB :: (body ++ trailing)) by
      simp [encFrame]] at h
    rw [← hbody]
    exact h
  · exact parseStep_suspends _ (Or.inr (Or.inr (Or.inr
      ⟨natDigits L, short, (L : Int), rfl, natDigits_no_colon _, pyIntBytes_natDigits _,
        by exact_mod_cast hshort⟩)))

/-- Witness for C2: length 2, body `AB`, trailing `MS`, short body `C`. -/
theorem C2_scrn_framing_witness :
    (([65, 66] : List Nat).length = 2 ∧ ([67] : List Nat).length < 2) ∧
    (serverParseStep (scrnCmd ++ colonB :: (natDigits 2 ++ colonB :: ([65, 66] ++ [77, 83])))
        = .emit (.scrn [65, 66]) [77, 83] ∧
      serverParseStep (scrnCmd ++ colonB :: (natDigits 2 ++ colonB :: [67])) = .suspend) :=
  ⟨⟨by decide, by decide⟩, C2_scrn_framing 2 [65, 66] [77, 83] [67] (by decide) (by decide)⟩

/-! ### Claim C8 — desync recovery policy -/

/-- Modelled from claim C8's words (spec §7): a parser that, on a malformed
header, discards buffered bytes only up to the next line boundary and
continues scanning there.  Defined solely to compare the claimed recovery
policy against the code's actual whole-buffer discard. -/
def lineRecoveryDrainF : Nat → List Nat → List Frame × List Nat
  | 0, b => ([], b)
  | fuel + 1, b =>
    match serverParseStep b with
    | .suspend => ([], b)
    | .discard =>
      if nlB ∈ b then lineRecoveryDrainF fuel (splitAtFirst nlB b).2
      else ([], [])
    | .emit f rest =>
      let r := lineRecoveryDrainF fuel rest
      (f :: r.1, r.2)

/-- The claimed discard-to-line-boundary parser run to completion. -/
def lineRecoveryDrain (b : List Nat) : List Frame × List Nat :=
  lineRecoveryDrainF (b.length + 1) b

/-- Claim C8, counterexample: on `SCRN:abc:x\nMSG:hi\n` (unparsable SCRN
length `abc`) the code clears the whole buffer and emits nothing, whereas
discarding only up to the next line boundary would recover the `MSG` frame
after the newline. -/
theorem C8_desync_counterexample :
    serverDrain [83, 67, 82, 78, 58, 97, 98, 99, 58, 120, 10, 77, 83, 71, 58, 104, 105, 10]
      = ([], []) ∧
    lineRecoveryDrain [83, 67, 82, 78, 58, 97, 98, 99, 58, 120, 10, 77, 83, 71, 58, 104, 105, 10]
      = ([Frame.line [77, 83, 71] [104, 105]], []) ∧
    serverDrain [83, 67, 82, 78, 58, 97, 98, 99, 58, 120, 10, 77, 83, 71, 58, 104, 105, 10]
      ≠ lineRecoveryDrain
          [83, 67, 82, 78, 58, 97, 98, 99, 58, 120, 10, 77, 83, 71, 58, 104, 105, 10] :=
  ⟨by decide, by decide, by decide⟩

/-- Claim C8, amended: on a malformed header — an unparsable integer in a
SCRN length field, or a command name that decodes to no known command — the
demultiplexer discards the entire buffered content (not merely up to the
next line boundary) and resumes line-mode scanning on bytes received
afterwards, which land in an empty buffer. -/
theorem C8_desync_amended (ds rest hdr rest2 chunk : List Nat) (fs₂ : List Frame)
    (hds : colonB ∉ ds) (hn : pyIntBytes ds = none)
    (hhdr1 : decodeIgnore hdr ∉ serverLineCmds) (hhdr2 : decodeIgnore hdr ≠ scrnCmd)
    (hhdr3 : colonB ∉ hdr) :
    serverDrain (scrnCmd ++ colonB :: (ds ++ colonB :: rest)) = ([], []) ∧
    serverDrain (hdr ++ colonB :: rest2) = ([], []) ∧
    serverFeed (fs₂, []) chunk = (fs₂ ++ (serverDrain chunk).1, (serverDrain chunk).2) := by
  obtain ⟨hs1, _, hs3, hs4⟩ := scrnCmd_facts
  refine ⟨?_, ?_, ?_⟩
  · refine serverDrain_discard _ ?_
    simp [serverParseStep, splitAtFirst_spec colonB scrnCmd _ hs1, hs3, hs4,
      splitAtFirst_spec colonB ds rest hds, hn]
  · refine serverDrain_discard _ ?_
    simp [serverParseStep, splitAtFirst_spec colonB hdr rest2 hhdr3, hhdr1, hhdr2]
  · simp [serverFeed]

/-- Witness for C8's amended theorem: SCRN length `abc`, unknown command
`XX`, and a follow-up chunk holding one complete `MSG` frame. -/
theorem C8_desync_amended_witness :
    ((colonB ∉ ([97, 98, 99] : List Nat)) ∧ pyIntBytes [97, 98, 99] = none ∧
      decodeIgnore [88, 88] ∉ serverLineCmds ∧ decodeIgnore [88, 88] ≠ scrnCmd ∧
      colonB ∉ ([88, 88] : List Nat)) ∧
    (serverDrain (scrnCmd ++ colonB :: ([97, 98, 99] ++ colonB :: [120, 10])) = ([], []) ∧
      serverDrain ([88, 88] ++ colonB :: [106, 10]) = ([], []) ∧
      serverFeed (([Frame.scrn [65]] : List Frame), []) [77, 83, 71, 58, 104, 105, 10]
        = ([Frame.scrn [65]] ++ (serverDrain [77, 83, 71, 58, 104, 105, 10]).1,
            (serverDrain [77, 83, 71, 58, 104, 105, 10]).2)) :=
  ⟨⟨by decide, by decide, by decide, by decide, by decide⟩,
    C8_desync_amended [97, 98, 99] [120, 10] [88, 88] [106, 10] [77, 83, 71, 58, 104, 105, 10]
      [Frame.scrn [65]] (by decide) (by decide) (by decide) (by decide) (by decide)⟩

/-! ### Claim C3 — file-transfer relay

Embedding of `ConferenceServer.handle_file_transfer`'s relay loop
(server.py lines 192–199).  The sender's byte stream is a list; `sched` is
the read oracle: entry `c` means the next `recv` returns up to `c` bytes
(clamped by the requested size and by the bytes still available); a `0`
entry or an exhausted stream or schedule models a zero-length read
(peer closed). -/

/-- Outcome of one relay run: bytes written to the receiver in order, the
reads performed as (bytesRelayedBefore, requestedSize) pairs, the final
`bytes_transferred`, and whether the completion check passed. -/
structure RelayRun where
  delivered : List Nat
  requests : List (Nat × Nat)
  transferred : Nat
  success : Bool
  deriving DecidableEq

/-- The relay loop of `handle_file_transfer`: while `bytes_transferred <
filesize`, request `min(4096, filesize - bytes_transferred)` bytes, abort on
a zero-length read, otherwise forward the chunk and accumulate. -/
def relayGo (N : Nat) : List Nat → Nat → List Nat → RelayRun
  | [], t, _ =>
    if N ≤ t then ⟨[], [], t, t == N⟩
    else ⟨[], [(t, min 4096 (N - t))], t, false⟩
  | c :: s', t, stream =>
    if N ≤ t then ⟨[], [], t, t == N⟩
    else
      let req := min 4096 (N - t)
      let got := min c (min req stream.length)
      if got = 0 then ⟨[], [(t, req)], t, false⟩
      else
        let r := relayGo N s' (t + got) (stream.drop got)
        ⟨stream.take got ++ r.delivered, (t, req) :: r.requests, r.transferred, r.success⟩

/-- A whole relay of an announced size `N` from the sender stream under a
read schedule, starting at zero bytes transferred. -/
def relay (N : Nat) (stream sched : List Nat) : RelayRun :=
  relayGo N sched 0 stream

theorem relayGo_spec (N : Nat) : ∀ (sched : List Nat) (t : Nat) (stream : List Nat),
    t ≤ N →
    t ≤ (relayGo N sched t stream).transferred ∧
    (relayGo N sched t stream).transferred ≤ N ∧
    ((relayGo N sched t stream).success = true ↔ (relayGo N sched t stream).transferred = N) ∧
    (∀ pr ∈ (relayGo N sched t stream).requests, pr.2 = min 4096 (N - pr.1) ∧ pr.1 < N) ∧
    (relayGo N sched t stream).delivered
      = stream.take ((relayGo N sched t stream).transferred - t) := by
  intro sched
  induction sched with
  | nil =>
    intro t stream ht
    by_cases h : N ≤ t
    · simp [relayGo, h, Nat.le_antisymm ht h]
    · simp [relayGo, h]
      omega
  | cons c s' ih =>
    intro t stream ht
    by_cases h : N ≤ t
    · simp [relayGo, h, Nat.le_antisymm ht h]
    · rw [relayGo, if_neg h]
      by_cases hg : min c (min (min 4096 (N - t)) stream.length) = 0
      · rw [if_pos hg]
        simp
        omega
      · rw [if_neg hg]
        have hgle : min c (min (min 4096 (N - t)) stream.length) ≤ N - t := by
          omega
        obtain ⟨i1, i2, i3, i4, i5⟩ :=
          ih (t + min c (min (min 4096 (N - t)) stream.length))
            (stream.drop (min c (min (min 4096 (N - t)) stream.length))) (by omega)
        refine ⟨by simpa using le_trans (by omega) i1, by simpa using i2,
          by simpa using i3, ?_, ?_⟩
        · intro pr hpr
          simp only [List.mem_cons] at hpr
          rcases hpr with rfl | hpr
          · exact ⟨rfl, by omega⟩
          · exact i4 pr hpr
        · simp only
          rw [i5]
          have harith : (relayGo N s'
              (t + min c (min (min 4096 (N - t)) stream.length))
              (stream.drop (min c (min (min 4096 (N - t)) stream.length)))).transferred - t
            = min c (min (min 4096 (N - t)) stream.length) +
              ((relayGo N s' (t + min c (min (min 4096 (N - t)) stream.length))
                (stream.drop (min c (min (min 4096 (N - t)) stream.length)))).transferred
                - (t + min c (min (min 4096 (N - t)) stream.length))) := by
            omega
          rw [harith, List.take_add]

theorem relayGo_complete (N : Nat) : ∀ (sched : List Nat) (t : Nat) (stream : List Nat),
    t ≤ N → N - t ≤ stream.length → (∀ c ∈ sched, 0 < c) → N - t ≤ sched.length →
    (relayGo N sched t stream).transferred = N := by
  intro sched
  induction sched with
  | nil =>
    intro t stream ht h1 _ h3
    simp only [List.length_nil, Nat.le_zero] at h3
    have : t = N := by omega
    subst this
    simp [relayGo]
  | cons c s' ih =>
    intro t stream ht h1 hpos h3
    by_cases h : N ≤ t
    · simp [relayGo, h]
      omega
    · rw [relayGo, if_neg h]
      have hc : 0 < c := hpos c (by simp)
      have hg : min c (min (min 4096 (N - t)) stream.length) ≠ 0 := by
        simp only [List.length_cons] at h3
        omega
      rw [if_neg hg]
      simp only
      refine ih _ _ (by omega) (by simp; omega) (fun x hx => hpos x (by simp [hx])) ?_
      simp only [List.length_cons] at h3
      omega

/-- Claim C3: for an announced size `N`, a sender stream holding at least
`N` bytes, and any read schedule of positive chunk sizes long enough to
finish, the relay (1) never lets `bytes_transferred` exceed `N`, (2)
reports success exactly when `bytes_transferred` reaches `N`, (3) requests
on every read exactly `min 4096 (N - bytesRelayed)` bytes from a point
strictly before completion, (4) delivers to the receiver exactly the first
`N` sender bytes in order and succeeds, and (5) a zero-length read at any
point before completion aborts immediately with no further reads and no
retry. -/
theorem C3_file_relay (N : Nat) (stream sched : List Nat) (t : Nat) (s2 stream2 : List Nat)
    (hstream : N ≤ stream.length) (hpos : ∀ c ∈ sched, 0 < c) (hsched : N ≤ sched.length)
    (ht : t < N) :
    (relay N stream sched).transferred ≤ N ∧
    ((relay N stream sched).success = true ↔ (relay N stream sched).transferred = N) ∧
    (∀ pr ∈ (relay N stream sched).requests, pr.2 = min 4096 (N - pr.1) ∧ pr.1 < N) ∧
    ((relay N stream sched).delivered = stream.take N ∧ (relay N stream sched).success = true) ∧
    relayGo N (0 :: s2) t stream2 = ⟨[], [(t, min 4096 (N - t))], t, false⟩ := by
  obtain ⟨i1, i2, i3, i4, i5⟩ := relayGo_spec N sched 0 stream (Nat.zero_le N)
  have hdone : (relay N stream sched).transferred = N :=
    relayGo_complete N sched 0 stream (Nat.zero_le N) (by omega) hpos (by omega)
  refine ⟨i2, i3, i4, ⟨?_, i3.mpr hdone⟩, ?_⟩
  · rw [show (relay N stream sched).delivered
        = stream.take ((relay N stream sched).transferred - 0) from i5, hdone]
    simp
  · rw [relayGo, if_neg (by omega)]
    simp

/-- Witness for C3: a 3-byte file delivered under the schedule `[2, 2, 2]`,
plus a zero-length read occurring when one byte is still missing. -/
theorem C3_file_relay_witness :
    (3 ≤ ([10, 20, 30, 99] : List Nat).length ∧ (∀ c ∈ ([2, 2, 2] : List Nat), 0 < c) ∧
      3 ≤ ([2, 2, 2] : List Nat).length ∧ 2 < 3) ∧
    ((relay 3 [10, 20, 30, 99] [2, 2, 2]).transferred ≤ 3 ∧
      ((relay 3 [10, 20, 30, 99] [2, 2, 2]).success = true ↔
        (relay 3 [10, 20, 30, 99] [2, 2, 2]).transferred = 3) ∧
      (∀ pr ∈ (relay 3 [10, 20, 30, 99] [2, 2, 2]).requests,
        pr.2 = min 4096 (3 - pr.1) ∧ pr.1 < 3) ∧
      ((relay 3 [10, 20, 30, 99] [2, 2, 2]).delivered = ([10, 20, 30, 99] : List Nat).take 3 ∧
        (relay 3 [10, 20, 30, 99] [2, 2, 2]).success = true) ∧
      relayGo 3 (0 :: [7]) 2 [5, 5] = ⟨[], [(2, min 4096 (3 - 2))], 2, false⟩) :=
  ⟨⟨by decide, by decide, by decide, by decide⟩,
    C3_file_relay 3 [10, 20, 30, 99] [2, 2, 2] 2 [7] [5, 5]
      (by decide) (by decide) (by decide) (by decide)⟩

/-! ### Claims C4, C5 — connection registry

Embedding of the server's registry: `self.clients : dict conn -> (username,
udp_addr)` and `self.username_to_conn : dict username -> conn`, with
registration (server.py lines 105–110), `remove_client` (lines 76–93) and
`broadcast`'s cascading `remove_client` on a send failure (lines 68–74).
Dicts become association lists with unique keys; socket send failures
become the oracle `failSet` of connections whose `sendall` raises. -/

/-- A TCP connection handle. -/
abbrev Conn := Nat

/-- An opaque UDP address. -/
abbrev Addr := Nat

/-- Dictionary lookup on an association list. -/
def alookup {β : Type} (k : Nat) : List (Nat × β) → Option β
  | [] => none
  | (k', v) :: t => if k = k' then some v else alookup k t

/-- Dictionary assignment `d[k] = v`: replace the existing entry or append. -/
def aset {β : Type} (k : Nat) (v : β) : List (Nat × β) → List (Nat × β)
  | [] => [(k, v)]
  | (k', v') :: t => if k = k' then (k, v) :: t else (k', v') :: aset k v t

/-- Dictionary removal `d.pop(k, None)`: drop the entry with key `k`. -/
def aerase {β : Type} (k : Nat) : List (Nat × β) → List (Nat × β)
  | [] => []
  | (k', v') :: t => if k = k' then t else (k', v') :: aerase k t

/-- Usernames are opaque identifiers; modelled as `Nat` so both registry
maps are association lists over `Nat` keys. -/
abbrev Uname := Nat

/-- The server's two registry maps. -/
structure Registry where
  clients : List (Conn × Uname × Addr)
  usernameToConn : List (Uname × Conn)
  deriving DecidableEq

/-- The registry of a freshly started server. -/
def Registry.empty : Registry := ⟨[], []⟩

/-- Outcome of a JOIN: registered, or refused with `ERROR:USERNAME_TAKEN`
(after which the caller closes the connection). -/
inductive JoinResult where
  | ok
  | usernameTaken
  deriving DecidableEq

/-- The registration step of `handle_client`: refuse when the username is
live in `username_to_conn`, else insert the session into both maps. -/
def register (reg : Registry) (conn : Conn) (username : Uname) (udp : Addr) :
    Registry × JoinResult :=
  if (alookup username reg.usernameToConn).isSome then (reg, .usernameTaken)
  else (⟨aset conn (username, udp) reg.clients, aset username conn reg.usernameToConn⟩, .ok)

/-- The `for conn in list(self.clients.keys())` body of `broadcast`:
iterate over a snapshot of the current clients, and on a send failure
(membership in `failSet`) run the given remover as cascading cleanup;
`excl` is `sender_conn`. -/
def broadcastWith (remover : Conn → Registry → Registry) (failSet : List Conn)
    (excl : Option Conn) (reg : Registry) : Registry :=
  (reg.clients.map Prod.fst).foldl
    (fun r c => if excl ≠ some c ∧ c ∈ failSet then remover c r else r) reg

/-- `ConferenceServer.remove_client`: when the connection is live, pop it
from both maps, then broadcast `USER_LEFT` and the `SYSTEM` departure
notice, each of which may cascade further removals on send failures.
Fuel-driven: each nested removal shrinks the registry, so any fuel at least
the client count is enough. -/
def removeClient : Nat → List Conn → Conn → Registry → Registry
  | 0, _, _, reg => reg
  | fuel + 1, failSet, conn, reg =>
    match alookup conn reg.clients with
    | none => reg
    | some (username, _) =>
      let reg1 : Registry := ⟨aerase conn reg.clients, aerase username reg.usernameToConn⟩
      let reg2 := broadcastWith (removeClient fuel failSet) failSet none reg1
      broadcastWith (removeClient fuel failSet) failSet none reg2

/-- `ConferenceServer.broadcast` under the failure oracle. -/
def broadcastFail (fuel : Nat) (failSet : List Conn) (excl : Option Conn)
    (reg : Registry) : Registry :=
  broadcastWith (removeClient fuel failSet) failSet excl reg

/-- A successful registration followed by the `SYSTEM ... has joined`
broadcast that `handle_client` performs (which excludes the new connection
and may itself cascade removals). -/
def registerOp (fuel : Nat) (failSet : List Conn) (conn : Conn) (username : Uname)
    (udp : Addr) (reg : Registry) : Registry × JoinResult :=
  let r := register reg conn username udp
  match r.2 with
  | .usernameTaken => r
  | .ok => (broadcastFail fuel failSet (some conn) r.1, .ok)

/-- A sequence of JOIN attempts, returning the final registry and the
number of successful joins. -/
def runJoins (reg : Registry) : List (Conn × Uname × Addr) → Registry × Nat
  | [] => (reg, 0)
  | (c, u, a) :: t =>
    let r := register reg c u a
    let rest := runJoins r.1 t
    (rest.1, (if r.2 = .ok then 1 else 0) + rest.2)

/-- The registry invariant of claim C5: unique keys in both maps, and every
session reachable from both maps or from neither. -/
def Inv (reg : Registry) : Prop :=
  (reg.clients.map Prod.fst).Nodup ∧
  (reg.usernameToConn.map Prod.fst).Nodup ∧
  (∀ c u a, (c, (u, a)) ∈ reg.clients → (u, c) ∈ reg.usernameToConn) ∧
  (∀ u c, (u, c) ∈ reg.usernameToConn → ∃ a, (c, (u, a)) ∈ reg.clients)

/-! ### Association-list lemmas -/

theorem alookup_eq_none {β : Type} (k : Nat) (l : List (Nat × β)) :
    alookup k l = none ↔ k ∉ l.map Prod.fst := by
  induction l with
  | nil => simp [alookup]
  | cons p t ih =>
    obtain ⟨k', v⟩ := p
    by_cases h : k = k' <;> simp [alookup, h, ih]

theorem alookup_mem {β : Type} {k : Nat} {l : List (Nat × β)} {v : β}
    (h : alookup k l = some v) : (k, v) ∈ l := by
  induction l with
  | nil => simp [alookup] at h
  | cons p t ih =>
    obtain ⟨k', v'⟩ := p
    by_cases hk : k = k'
    · subst hk
      simp [alookup] at h
      simp [h]
    · simp [alookup, hk] at h
      simp [ih h]

theorem mem_alookup {β : Type} {k : Nat} {l : List (Nat × β)} {v : β}
    (hnd : (l.map Prod.fst).Nodup) (h : (k, v) ∈ l) : alookup k l = some v := by
  induction l with
  | nil => simp at h
  | cons p t ih =>
    obtain ⟨k', v'⟩ := p
    simp only [List.map_cons, List.nodup_cons] at hnd
    rcases List.mem_cons.1 h with h1 | h1
    · obtain ⟨rfl, rfl⟩ := Prod.mk.injEq .. ▸ h1
      simp [alookup]
    · have hk : k ≠ k' := by
        intro hkk
        subst hkk
        exact hnd.1 (List.mem_map.2 ⟨(k, v), h1, rfl⟩)
      simp [alookup, hk, ih hnd.2 h1]

theorem assoc_mem_unique {β : Type} {l : List (Nat × β)} {k : Nat} {v1 v2 : β}
    (hnd : (l.map Prod.fst).Nodup) (h1 : (k, v1) ∈ l) (h2 : (k, v2) ∈ l) : v1 = v2 := by
  have e1 := mem_alookup hnd h1
  have e2 := mem_alookup hnd h2
  rw [e1] at e2
  exact (Option.some.injEq _ _ ▸ e2)

theorem aset_of_fresh {β : Type} {k : Nat} (v : β) {l : List (Nat × β)}
    (h : alookup k l = none) : aset k v l = l ++ [(k, v)] := by
  induction l with
  | nil => simp [aset]
  | cons p t ih =>
    obtain ⟨k', v'⟩ := p
    by_cases hk : k = k'
    · subst hk; simp [alookup] at h
    · simp [alookup, hk] at h
      simp [aset, hk, ih h]

theorem aerase_sublist {β : Type} (k : Nat) (l : List (Nat × β)) :
    List.Sublist (aerase k l) l := by
  induction l with
  | nil => simp [aerase]
  | cons p t ih =>
    obtain ⟨k', v'⟩ := p
    by_cases hk : k = k'
    · rw [aerase, if_pos hk]
      exact (List.sublist_cons_self _ _)
    · rw [aerase, if_neg hk]
      exact ih.cons₂ (k', v')

theorem aerase_keys_nodup {β : Type} (k : Nat) {l : List (Nat × β)}
    (hnd : (l.map Prod.fst).Nodup) : ((aerase k l).map Prod.fst).Nodup :=
  hnd.sublist ((aerase_sublist k l).map Prod.fst)

theorem mem_aerase {β : Type} {k k' : Nat} {v' : β} {l : List (Nat × β)}
    (hnd : (l.map Prod.fst).Nodup) :
    (k', v') ∈ aerase k l ↔ (k', v') ∈ l ∧ k' ≠ k := by
  induction l with
  | nil => simp [aerase]
  | cons p t ih =>
    obtain ⟨k0, v0⟩ := p
    simp only [List.map_cons, List.nodup_cons] at hnd
    by_cases hk : k = k0
    · subst hk
      rw [aerase, if_pos rfl]
      constructor
      · intro h
        refine ⟨List.mem_cons_of_mem _ h, fun hkk => ?_⟩
        subst hkk
        exact hnd.1 (List.mem_map.2 ⟨(k', v'), h, rfl⟩)
      · rintro ⟨h1, h2⟩
        rcases List.mem_cons.1 h1 with h3 | h3
        · exact absurd (congrArg Prod.fst h3) h2
        · exact h3
    · rw [aerase, if_neg hk]
      rw [List.mem_cons, List.mem_cons, ih hnd.2]
      constructor
      · rintro (h | ⟨h1, h2⟩)
        · have hkk : k' = k0 := congrArg Prod.fst h
          exact ⟨Or.inl h, fun he => hk (he.symm.trans hkk)⟩
        · exact ⟨Or.inr h1, h2⟩
      · rintro ⟨h1 | h1, h2⟩
        · exact Or.inl h1
        · exact Or.inr ⟨h1, h2⟩

theorem foldl_pres {P : Registry → Prop} {step : Registry → Conn → Registry}
    (hstep : ∀ r c, P r → P (step r c)) :
    ∀ (l : List Conn) (r : Registry), P r → P (l.foldl step r) := by
  intro l
  induction l with
  | nil => intro r h; exact h
  | cons c t ih => intro r h; exact ih _ (hstep r c h)

theorem alookup_aset {β : Type} (k k' : Nat) (v : β) (l : List (Nat × β)) :
    alookup k (aset k' v l) = if k = k' then some v else alookup k l := by
  induction l with
  | nil => by_cases h : k = k' <;> simp [aset, alookup, h]
  | cons p t ih =>
    obtain ⟨k0, v0⟩ := p
    by_cases h0 : k' = k0
    · subst h0
      rw [aset, if_pos rfl]
      by_cases h : k = k' <;> simp [alookup, h]
    · rw [aset, if_neg h0]
      by_cases h : k = k0
      · subst h
        rw [alookup, if_pos rfl, if_neg (fun he => h0 he.symm), alookup, if_pos rfl]
      · simp [alookup, h, ih]

theorem aset_fresh_length {β : Type} {k : Nat} (v : β) {l : List (Nat × β)}
    (h : alookup k l = none) : (aset k v l).length = l.length + 1 := by
  rw [aset_of_fresh v h]
  simp

theorem runJoins_fresh : ∀ (joins : List (Conn × Uname × Addr)) (reg : Registry),
    (joins.map (fun j => j.2.1)).Nodup → (joins.map (fun j => j.1)).Nodup →
    (∀ j ∈ joins, alookup j.2.1 reg.usernameToConn = none) →
    (∀ j ∈ joins, alookup j.1 reg.clients = none) →
    (runJoins reg joins).2 = joins.length ∧
    (runJoins reg joins).1.clients.length = reg.clients.length + joins.length ∧
    (runJoins reg joins).1.usernameToConn.length
      = reg.usernameToConn.length + joins.length := by
  intro joins
  induction joins with
  | nil => intro reg _ _ _ _; simp [runJoins]
  | cons j t ih =>
    obtain ⟨c, u, a⟩ := j
    intro reg hnu hnc hu hc
    simp only [List.map_cons, List.nodup_cons] at hnu hnc
    have hu0 : alookup u reg.usernameToConn = none := hu (c, u, a) (by simp)
    have hc0 : alookup c reg.clients = none := hc (c, u, a) (by simp)
    have hreg : register reg c u a
        = (⟨aset c (u, a) reg.clients, aset u c reg.usernameToConn⟩, .ok) := by
      rw [register, if_neg (by simp [hu0])]
    rw [runJoins, hreg]
    simp only
    obtain ⟨e1, e2, e3⟩ := ih ⟨aset c (u, a) reg.clients, aset u c reg.usernameToConn⟩
      hnu.2 hnc.2
      (by
        intro j hj
        have hne : j.2.1 ≠ u := by
          intro he
          apply hnu.1
          rw [← he]
          exact List.mem_map.2 ⟨j, hj, rfl⟩
        rw [alookup_aset, if_neg hne]
        exact hu j (by simp [hj]))
      (by
        intro j hj
        have hne : j.1 ≠ c := by
          intro he
          apply hnc.1
          rw [← he]
          exact List.mem_map.2 ⟨j, hj, rfl⟩
        rw [alookup_aset, if_neg hne]
        exact hc j (by simp [hj]))
    refine ⟨by simp [e1]; omega, ?_, ?_⟩
    · rw [e2, aset_fresh_length _ hc0]
      simp
      omega
    · rw [e3, aset_fresh_length _ hu0]
      simp
      omega

/-- Claim C4: a JOIN whose username is live is answered `usernameTaken` with
both registry maps unchanged (the session is never registered), and a
sequence of JOINs with pairwise distinct usernames on pairwise distinct
connections, starting from an empty registry, leaves both maps with exactly
one entry per successful join — every join succeeding. -/
theorem C4_join_registration (reg : Registry) (c : Conn) (u : Uname) (a : Addr)
    (joins : List (Conn × Uname × Addr))
    (hdup : (alookup u reg.usernameToConn).isSome = true)
    (hnu : (joins.map (fun j => j.2.1)).Nodup) (hnc : (joins.map (fun j => j.1)).Nodup) :
    register reg c u a = (reg, .usernameTaken) ∧
    (runJoins Registry.empty joins).2 = joins.length ∧
    (runJoins Registry.empty joins).1.clients.length = joins.length ∧
    (runJoins Registry.empty joins).1.usernameToConn.length = joins.length := by
  have h := runJoins_fresh joins Registry.empty hnu hnc (fun j _ => rfl) (fun j _ => rfl)
  refine ⟨by rw [register, if_pos hdup], ?_, ?_, ?_⟩
  · simpa [Registry.empty] using h.1
  · simpa [Registry.empty] using h.2.1
  · simpa [Registry.empty] using h.2.2

/-- Witness for C4: a registry where username `10` is live refuses a second
JOIN as `10`; two fresh joins with distinct names fill both maps. -/
theorem C4_join_registration_witness :
    ((alookup 10 (⟨[(1, (10, 100))], [(10, 1)]⟩ : Registry).usernameToConn).isSome = true ∧
      (([(2, 20, 200), (3, 30, 300)] : List (Conn × Uname × Addr)).map
        (fun j => j.2.1)).Nodup ∧
      (([(2, 20, 200), (3, 30, 300)] : List (Conn × Uname × Addr)).map
        (fun j => j.1)).Nodup) ∧
    (register ⟨[(1, (10, 100))], [(10, 1)]⟩ 2 10 200
        = (⟨[(1, (10, 100))], [(10, 1)]⟩, .usernameTaken) ∧
      (runJoins Registry.empty [(2, 20, 200), (3, 30, 300)]).2 = 2 ∧
      (runJoins Registry.empty [(2, 20, 200), (3, 30, 300)]).1.clients.length = 2 ∧
      (runJoins Registry.empty
        [(2, 20, 200), (3, 30, 300)]).1.usernameToConn.length = 2) :=
  ⟨⟨by decide, by decide, by decide⟩,
    C4_join_registration ⟨[(1, (10, 100))], [(10, 1)]⟩ 2 10 200
      [(2, 20, 200), (3, 30, 300)] (by decide) (by decide) (by decide)⟩

/-! ### Invariant preservation (claim C5) -/

theorem register_inv {reg : Registry} (hInv : Inv reg) (conn : Conn) (username : Uname)
    (udp : Addr) (hfresh : alookup conn reg.clients = none) :
    Inv (register reg conn username udp).1 := by
  obtain ⟨n1, n2, f1, f2⟩ := hInv
  by_cases h : (alookup username reg.usernameToConn).isSome
  · rw [register, if_pos h]
    exact ⟨n1, n2, f1, f2⟩
  · rw [register, if_neg h]
    rw [Option.not_isSome_iff_eq_none] at h
    have e1 := aset_of_fresh (username, udp) hfresh
    have e2 := aset_of_fresh conn h
    have hcnot : conn ∉ reg.clients.map Prod.fst := (alookup_eq_none _ _).1 hfresh
    have hunot : username ∉ reg.usernameToConn.map Prod.fst := (alookup_eq_none _ _).1 h
    refine ⟨?_, ?_, ?_, ?_⟩
    · simp only [e1, List.map_append]
      simp [List.nodup_append, n1, hcnot]
    · simp only [e2, List.map_append]
      simp [List.nodup_append, n2, hunot]
    · intro c u a hm
      simp only [e1, e2, List.mem_append, List.mem_singleton] at hm ⊢
      rcases hm with hm | hm
      · exact Or.inl (f1 _ _ _ hm)
      · obtain ⟨rfl, rfl, rfl⟩ := Prod.mk.injEq .. ▸ hm
        exact Or.inr rfl
    · intro u c hm
      simp only [e1, e2, List.mem_append, List.mem_singleton] at hm ⊢
      rcases hm with hm | hm
      · obtain ⟨a, ha⟩ := f2 _ _ hm
        exact ⟨a, Or.inl ha⟩
      · obtain ⟨rfl, rfl⟩ := Prod.mk.injEq .. ▸ hm
        exact ⟨udp, Or.inr rfl⟩

theorem removeClient_inv : ∀ (fuel : Nat) (failSet : List Conn) (conn : Conn) (reg : Registry),
    Inv reg → Inv (removeClient fuel failSet conn reg) := by
  intro fuel
  induction fuel with
  | zero => intro _ _ reg h; exact h
  | succ f ih =>
    intro failSet conn reg hInv
    rw [removeClient]
    cases hl : alookup conn reg.clients with
    | none => exact hInv
    | some v =>
      obtain ⟨username, addr⟩ := v
      simp only
      have hInv1 : Inv ⟨aerase conn reg.clients, aerase username reg.usernameToConn⟩ := by
        obtain ⟨n1, n2, f1, f2⟩ := hInv
        have hmem : (conn, (username, addr)) ∈ reg.clients := alookup_mem hl
        have hln : (username, conn) ∈ reg.usernameToConn := f1 _ _ _ hmem
        refine ⟨aerase_keys_nodup _ n1, aerase_keys_nodup _ n2, ?_, ?_⟩
        · intro c u a hm
          rw [mem_aerase n1] at hm
          obtain ⟨hm1, hm2⟩ := hm
          rw [mem_aerase n2]
          refine ⟨f1 _ _ _ hm1, fun he => ?_⟩
          subst he
          exact hm2 (assoc_mem_unique n2 (f1 _ _ _ hm1) hln)
        · intro u c hm
          rw [mem_aerase n2] at hm
          obtain ⟨hm1, hm2⟩ := hm
          obtain ⟨a, ha⟩ := f2 _ _ hm1
          refine ⟨a, ?_⟩
          rw [mem_aerase n1]
          refine ⟨ha, fun he => ?_⟩
          subst he
          exact hm2 (congrArg (fun q => q.1) (assoc_mem_unique n1 ha hmem))
      have hb : ∀ r : Registry, Inv r →
          Inv (broadcastWith (removeClient f failSet) failSet none r) := by
        intro r hr
        refine foldl_pres ?_ _ r hr
        intro r' c' hr'
        dsimp only
        split
        · exact ih failSet c' r' hr'
        · exact hr'
      exact hb _ (hb _ hInv1)

theorem broadcastFail_inv (fuel : Nat) (failSet : List Conn) (excl : Option Conn)
    {reg : Registry} (h : Inv reg) : Inv (broadcastFail fuel failSet excl reg) := by
  refine foldl_pres ?_ _ reg h
  intro r c hr
  dsimp only
  split
  · exact removeClient_inv fuel failSet c r hr
  · exact hr

theorem registerOp_inv (fuel : Nat) (failSet : List Conn) (conn : Conn) (username : Uname)
    (udp : Addr) {reg : Registry} (h : Inv reg) (hfresh : alookup conn reg.clients = none) :
    Inv (registerOp fuel failSet conn username udp reg).1 := by
  have hr := register_inv h conn username udp hfresh
  rw [registerOp]
  cases hcase : (register reg conn username udp).2 with
  | usernameTaken => simpa using hr
  | ok =>
    simp only
    exact broadcastFail_inv fuel failSet (some conn) hr

theorem removeClient_no_add : ∀ (fuel : Nat) (failSet : List Conn) (conn x : Conn)
    (reg : Registry), alookup x reg.clients = none →
    alookup x (removeClient fuel failSet conn reg).clients = none := by
  intro fuel
  induction fuel with
  | zero => intro _ _ _ reg h; exact h
  | succ f ih =>
    intro failSet conn x reg h
    rw [removeClient]
    cases hl : alookup conn reg.clients with
    | none => exact h
    | some v =>
      obtain ⟨username, addr⟩ := v
      simp only
      have h1 : alookup x (aerase conn reg.clients) = none := by
        rw [alookup_eq_none] at h ⊢
        intro hx
        exact h (((aerase_sublist conn reg.clients).map Prod.fst).subset hx)
      have hb : ∀ r : Registry, alookup x r.clients = none →
          alookup x (broadcastWith (removeClient f failSet) failSet none r).clients
            = none := by
        intro r hr
        refine foldl_pres (P := fun r0 => alookup x r0.clients = none) ?_ _ r hr
        intro r' c' hr'
        dsimp only
        split
        · exact ih failSet c' x r' hr'
        · exact hr'
      exact hb _ (hb _ h1)

theorem removeClient_gone (fuel : Nat) (failSet : List Conn) (conn : Conn) (reg : Registry)
    (hpos : 0 < fuel) (hnd : (reg.clients.map Prod.fst).Nodup) :
    alookup conn (removeClient fuel failSet conn reg).clients = none := by
  cases fuel with
  | zero => omega
  | succ f =>
    rw [removeClient]
    cases hl : alookup conn reg.clients with
    | none => exact hl
    | some v =>
      obtain ⟨username, addr⟩ := v
      simp only
      have h1 : alookup conn (aerase conn reg.clients) = none := by
        rw [alookup_eq_none]
        intro hx
        obtain ⟨p, hp, hfst⟩ := List.mem_map.1 hx
        obtain ⟨k0, v0⟩ := p
        simp only at hfst
        subst hfst
        exact ((mem_aerase hnd).1 hp).2 rfl
      have hb : ∀ r : Registry, alookup conn r.clients = none →
          alookup conn (broadcastWith (removeClient f failSet) failSet none r).clients
            = none := by
        intro r hr
        refine foldl_pres (P := fun r0 => alookup conn r0.clients = none) ?_ _ r hr
        intro r' c' hr'
        dsimp only
        split
        · exact removeClient_no_add f failSet c' conn r' hr'
        · exact hr'
      exact hb _ (hb _ h1)

theorem removeClient_noop (fuel : Nat) (failSet : List Conn) (conn : Conn) (reg : Registry)
    (h : alookup conn reg.clients = none) :
    removeClient fuel failSet conn reg = reg := by
  cases fuel with
  | zero => rfl
  | succ f => rw [removeClient, h]

theorem removeClient_idem (fuel : Nat) (failSet : List Conn) (conn : Conn) (reg : Registry)
    (hnd : (reg.clients.map Prod.fst).Nodup) :
    removeClient fuel failSet conn (removeClient fuel failSet conn reg)
      = removeClient fuel failSet conn reg := by
  cases fuel with
  | zero => rfl
  | succ f =>
    exact removeClient_noop (f + 1) failSet conn _
      (removeClient_gone (f + 1) failSet conn reg (Nat.succ_pos f) hnd)

theorem inv_usernames_nodup {reg : Registry} (hInv : Inv reg) :
    (reg.clients.map (fun p => p.2.1)).Nodup := by
  obtain ⟨n1, n2, f1, f2⟩ := hInv
  refine List.Nodup.map_on ?_ (n1.of_map)
  intro x hx y hy hxy
  obtain ⟨cx, ux, ax⟩ := x
  obtain ⟨cy, uy, ay⟩ := y
  simp only at hxy
  subst hxy
  have h1 : (ux, cx) ∈ reg.usernameToConn := f1 _ _ _ hx
  have h2 : (ux, cy) ∈ reg.usernameToConn := f1 _ _ _ hy
  have hc : cx = cy := assoc_mem_unique n2 h1 h2
  subst hc
  have hv : (ux, ax) = ((ux : Uname), ay) := assoc_mem_unique n1 hx hy
  rw [show ax = ay from congrArg (fun q => q.2) hv]

/-- Claim C5: starting from a registry satisfying the invariant, every
registry operation preserves it — a successful registration (with its
post-join broadcast and possible cascades), `remove_client` with arbitrary
cascading send failures, and a standalone failing broadcast; after a
removal, usernames remain unique among live sessions and every session is
reachable from both maps or neither; removing a connection that is not
registered is a no-op, and repeating a removal of the same connection is a
no-op. -/
theorem C5_registry_invariant (fuel : Nat) (failSet : List Conn) (cNew cOld : Conn)
    (u : Uname) (udp : Addr) (reg : Registry) (hInv : Inv reg)
    (hfresh : alookup cNew reg.clients = none) :
    Inv (registerOp fuel failSet cNew u udp reg).1 ∧
    Inv (removeClient fuel failSet cOld reg) ∧
    Inv (broadcastFail fuel failSet none reg) ∧
    ((removeClient fuel failSet cOld reg).clients.map (fun p => p.2.1)).Nodup ∧
    (∀ c u2 a2, (c, (u2, a2)) ∈ (removeClient fuel failSet cOld reg).clients →
      (u2, c) ∈ (removeClient fuel failSet cOld reg).usernameToConn) ∧
    (∀ u2 c, (u2, c) ∈ (removeClient fuel failSet cOld reg).usernameToConn →
      ∃ a2, (c, (u2, a2)) ∈ (removeClient fuel failSet cOld reg).clients) ∧
    removeClient fuel failSet cNew reg = reg ∧
    removeClient fuel failSet cOld (removeClient fuel failSet cOld reg)
      = removeClient fuel failSet cOld reg := by
  have hrem := removeClient_inv fuel failSet cOld reg hInv
  exact ⟨registerOp_inv fuel failSet cNew u udp hInv hfresh, hrem,
    broadcastFail_inv fuel failSet none hInv, inv_usernames_nodup hrem,
    hrem.2.2.1, hrem.2.2.2, removeClient_noop fuel failSet cNew reg hfresh,
    removeClient_idem fuel failSet cOld reg hInv.1⟩

/-- Witness for C5: a two-session registry satisfying the invariant, with a
fresh connection `3`, a removal of connection `1`, and connection `2`
failing its broadcast send. -/
theorem C5_registry_invariant_witness :
    (Inv ⟨[(1, (10, 100)), (2, (20, 200))], [(10, 1), (20, 2)]⟩ ∧
      alookup 3 (⟨[(1, (10, 100)), (2, (20, 200))],
        [(10, 1), (20, 2)]⟩ : Registry).clients = none) ∧
    (Inv (registerOp 5 [2] 3 30 300 ⟨[(1, (10, 100)), (2, (20, 200))], [(10, 1), (20, 2)]⟩).1 ∧
      Inv (removeClient 5 [2] 1 ⟨[(1, (10, 100)), (2, (20, 200))], [(10, 1), (20, 2)]⟩) ∧
      removeClient 5 [2] 3 ⟨[(1, (10, 100)), (2, (20, 200))], [(10, 1), (20, 2)]⟩
        = ⟨[(1, (10, 100)), (2, (20, 200))], [(10, 1), (20, 2)]⟩) := by
  have hInv : Inv ⟨[(1, (10, 100)), (2, (20, 200))], [(10, 1), (20, 2)]⟩ := by
    refine ⟨by decide, by decide, ?_, ?_⟩
    · intro c u a h
      simp only [List.mem_cons, List.not_mem_nil, or_false] at h
      rcases h with h | h <;>
        · obtain ⟨rfl, rfl, rfl⟩ := Prod.mk.injEq .. ▸ h
          decide
    · intro u c h
      simp only [List.mem_cons, List.not_mem_nil, or_false] at h
      rcases h with h | h
      · obtain ⟨rfl, rfl⟩ := Prod.mk.injEq .. ▸ h
        exact ⟨100, by decide⟩
      · obtain ⟨rfl, rfl⟩ := Prod.mk.injEq .. ▸ h
        exact ⟨200, by decide⟩
  have hfresh : alookup 3 (⟨[(1, (10, 100)), (2, (20, 200))],
      [(10, 1), (20, 2)]⟩ : Registry).clients = none := by decide
  have h := C5_registry_invariant 5 [2] 3 1 30 300
    ⟨[(1, (10, 100)), (2, (20, 200))], [(10, 1), (20, 2)]⟩ hInv hfresh
  exact ⟨⟨hInv, hfresh⟩, h.1, h.2.1, h.2.2.2.2.2.2.1⟩

/-! ### Claim C7 — UDP media relay failure handling

Embedding of `ConferenceServer.udp_listener` (server.py lines 57–66).  The
`try` block wraps both the `recvfrom` and the whole forwarding `for` loop;
the `except` clause runs `break` while the server is running.  `failAddrs`
is the oracle of destination addresses whose `sendto` raises. -/

/-- The forwarding `for` loop for one datagram that arrived from `srcAddr`:
send to every registered UDP address other than the source, in registry
order; the first failing `sendto` raises out of the loop (returned flag),
skipping all remaining destinations. -/
def udpForwardGo (srcAddr : Addr) (failAddrs : List Addr) :
    List (Conn × Uname × Addr) → List Addr × Bool
  | [] => ([], false)
  | (_, (_, a)) :: t =>
    if a ≠ srcAddr then
      if a ∈ failAddrs then ([], true)
      else
        let r := udpForwardGo srcAddr failAddrs t
        (a :: r.1, r.2)
    else udpForwardGo srcAddr failAddrs t

/-- The `while self.running` receive loop of `udp_listener` over a sequence
of inbound datagram source addresses: when an exception escapes the `for`
loop while the server is running, the `except` handler executes `break`,
terminating the receive loop. -/
def udpListener (clients : List (Conn × Uname × Addr)) (failAddrs : List Addr) :
    List Addr → List (List Addr)
  | [] => []
  | s :: rest =>
    let r := udpForwardGo s failAddrs clients
    r.1 :: (if r.2 then [] else udpListener clients failAddrs rest)

/-- Claim C9/C7 context: with sessions at UDP addresses 101, 102, 103 and a
datagram arriving from 101, a `sendto` failure at 102 makes the loop body
raise before 103 is ever attempted, and the receive loop then breaks: a
second datagram from 101 is never relayed.  With no failure the same
datagram goes to 102 and 103 and never back to 101 — the behaviour the
claim asserts unconditionally. -/
theorem C7_udp_failure_isolation :
    udpForwardGo 101 [102] [(1, (10, 101)), (2, (20, 102)), (3, (30, 103))] = ([], true) ∧
    udpListener [(1, (10, 101)), (2, (20, 102)), (3, (30, 103))] [102] [101, 101] = [[]] ∧
    udpForwardGo 101 [] [(1, (10, 101)), (2, (20, 102)), (3, (30, 103))]
      = ([102, 103], false) ∧
    udpListener [(1, (10, 101)), (2, (20, 102)), (3, (30, 103))] [] [101, 101]
      = [[102, 103], [102, 103]] := by
  refine ⟨by decide, by decide, by decide, by decide⟩

/-! ### Claims C9, C10 — client-side quality estimator

Embedding of the per-packet loss-metric update of `MediaReceiver.run`
(client_network.py lines 53–60).  The arrivals deque feeds only the jitter
estimate and plays no part in these claims. -/

/-- Per-peer loss metrics (`self.metrics[username]`): `last_seq`, `lost`,
`total`. -/
structure PeerStats where
  lastSeq : Int
  lost : Int
  total : Nat
  deriving DecidableEq

/-- Metric creation for a previously unseen username (line 54): `last_seq`
starts at `seq_num - 1`. -/
def mkStats (seq : Int) : PeerStats := ⟨seq - 1, 0, 0⟩

/-- The per-packet update (lines 53–59): create the entry when absent, bump
`total`, add the positive sequence gap to `lost`, record the new
`last_seq`. -/
def updateStats (prev : Option PeerStats) (seq : Int) : PeerStats :=
  let st := prev.getD (mkStats seq)
  let total := st.total + 1
  let lostCount := seq - st.lastSeq - 1
  let lost := if 0 < lostCount then st.lost + lostCount else st.lost
  ⟨seq, lost, total⟩

/-- `loss_pct` (line 60): `lost / total * 100` once a packet was counted. -/
def lossPct (st : PeerStats) : ℚ :=
  if 0 < st.total then (st.lost : ℚ) / (st.total : ℚ) * 100 else 0

/-- The metrics entry for one username after a sequence of its packets. -/
def runStats (seqs : List Int) : Option PeerStats :=
  seqs.foldl (fun m q => some (updateStats m q)) none

/-- Claim C9: sequence numbers 0, 1, 2, 5, 6 yield `lost = 2`, `total = 5`
and a 40 percent loss figure, and every packet adds exactly
`max 0 (seq - lastSeq - 1)` to `lost`, adds one to `total`, and sets
`lastSeq` to `seq`. -/
theorem C9_loss_counter :
    runStats [0, 1, 2, 5, 6] = some ⟨6, 2, 5⟩ ∧
    lossPct ⟨6, 2, 5⟩ = 40 ∧
    (∀ (st : PeerStats) (seq : Int), updateStats (some st) seq
      = ⟨seq, st.lost + max 0 (seq - st.lastSeq - 1), st.total + 1⟩) := by
  refine ⟨by decide, by norm_num [lossPct], ?_⟩
  intro st seq
  simp only [updateStats, Option.getD_some, PeerStats.mk.injEq]
  refine ⟨trivial, ?_, trivial⟩
  by_cases h : 0 < seq - st.lastSeq - 1
  · rw [if_pos h]
    omega
  · rw [if_neg h]
    omega

/-- Claim C10: the first packet from an unseen username creates metrics
with `lastSeq = seq - 1`, so it contributes zero loss and the loss figure
after exactly one packet is zero, whatever the initial sequence number. -/
theorem C10_first_packet (s : Int) :
    updateStats none s = ⟨s, 0, 1⟩ ∧ lossPct (updateStats none s) = 0 := by
  have h : updateStats none s = ⟨s, 0, 1⟩ := by
    simp only [updateStats, mkStats, Option.getD_none]
    rw [if_neg (by omega)]
  refine ⟨h, ?_⟩
  rw [h, lossPct]
  norm_num

/-! ### Claim C6 — client raw mode after FILE_INCOMING

Embedding of `TCPReceiver.run` / `process_command` (client_network.py lines
104–160) together with the byte counting of
`FileReceiverWorker.write_chunk` (lines 183–198).  The crucial structural
fact mirrored from the code: `is_receiving_file` is consulted only at the
top of the outer `recv` loop, never inside the inner buffer-parsing loop,
and `process_command` returns into that inner loop after setting the flag.

Decoding is modelled on the ASCII plane: a header or payload containing a
byte at or above 0x80 takes the code's decode-failure path (for the header
a caught error clearing the buffer, for a payload or the SCRN username an
uncaught exception killing the receive loop); valid non-ASCII UTF-8, which
can never equal a command name and is not exercised by any claim, is not
distinguished. -/

/-- An observable effect of the client receiver: a dispatched non-file
command, a `FILE_INCOMING` dispatch, a screen-share subframe, or bytes
written to disk by the file consumer. -/
inductive CEvent where
  | cmdDispatch (cmd : List Nat) (payload : List Nat)
  | fileIncoming (fromUser filename : List Nat) (size : Int)
  | scrnFrame (user content : List Nat)
  | fileData (written : List Nat)
  deriving DecidableEq

/-- Byte lists of the client's line-mode command names `("SYSTEM", "CHAT",
"PONG", "SCRN_START", "SCRN_STOP", "FILE_INCOMING", "USER_LEFT")`. -/
def clientLineCmds : List (List Nat) :=
  [[83, 89, 83, 84, 69, 77],
   [67, 72, 65, 84],
   [80, 79, 78, 71],
   [83, 67, 82, 78, 95, 83, 84, 65, 82, 84],
   [83, 67, 82, 78, 95, 83, 84, 79, 80],
   [70, 73, 76, 69, 95, 73, 78, 67, 79, 77, 73, 78, 71],
   [85, 83, 69, 82, 95, 76, 69, 70, 84]]

/-- Byte list of `"FILE_INCOMING"`. -/
def fileIncomingCmd : List Nat := [70, 73, 76, 69, 95, 73, 78, 67, 79, 77, 73, 78, 71]

/-- All bytes below 0x80. -/
def allAscii (l : List Nat) : Bool := l.all (fun b => b < 128)

/-- Python `payload.split(':', 2)` unpacked into three names: fails (raising
`ValueError` on unpack) unless the payload holds at least two colons. -/
def split2 (payload : List Nat) : Option (List Nat × List Nat × List Nat) :=
  if colonB ∈ payload then
    let p1 := splitAtFirst colonB payload
    if colonB ∈ p1.2 then
      let p2 := splitAtFirst colonB p1.2
      some (p1.1, p2.1, p2.2)
    else none
  else none

/-- Result of one iteration of the client's inner parse loop. -/
inductive CStepR where
  | suspend
  | discard
  | halt
  | emit (ev : CEvent) (rest : List Nat) (fileAnn : Option Int)
  deriving DecidableEq

/-- One iteration of the inner `while True` loop of `TCPReceiver.run`
(client_network.py lines 117–143) combined with `process_command`:
`fileAnn` carries the announced size when the frame was `FILE_INCOMING`
(which sets `is_receiving_file`). -/
def clientParseStep (b : List Nat) : CStepR :=
  if colonB ∈ b then
    let hr := splitAtFirst colonB b
    if allAscii hr.1 then
      if hr.1 ∈ clientLineCmds then
        if nlB ∈ hr.2 then
          let pb := splitAtFirst nlB hr.2
          if allAscii pb.1 then
            if hr.1 = fileIncomingCmd then
              match split2 pb.1 with
              | none => .halt
              | some (fu, fn, fsStr) =>
                match pyIntBytes fsStr with
                | none => .halt
                | some n => .emit (.fileIncoming fu fn n) pb.2 (some n)
            else .emit (.cmdDispatch hr.1 pb.1) pb.2 none
          else .halt
        else .suspend
      else if hr.1 = scrnCmd then
        if colonB ∈ hr.2 then
          let ur := splitAtFirst colonB hr.2
          if allAscii ur.1 then
            if colonB ∈ ur.2 then
              let sd := splitAtFirst colonB ur.2
              match pyIntBytes sd.1 with
              | none => .discard
              | some n =>
                if n ≤ (sd.2.length : Int) then
                  .emit (.scrnFrame ur.1 (pyTake n sd.2)) (pyDrop n sd.2) none
                else .suspend
            else .suspend
          else .halt
        else .suspend
      else .discard
    else .discard
  else .suspend

/-- Output of draining the client's inner loop: dispatched events, the
remaining buffer, the size announced by a `FILE_INCOMING` frame if one was
dispatched, and whether an uncaught exception killed the receive loop. -/
structure DrainOut where
  events : List CEvent
  buffer : List Nat
  fileAnn : Option Int
  halted : Bool
  deriving DecidableEq

/-- The client's inner loop run to completion, fuel-driven. -/
def clientDrainF : Nat → List Nat → DrainOut
  | 0, b => ⟨[], b, none, false⟩
  | fuel + 1, b =>
    match clientParseStep b with
    | .suspend => ⟨[], b, none, false⟩
    | .discard => ⟨[], [], none, false⟩
    | .halt => ⟨[], b, none, true⟩
    | .emit ev rest ann =>
      let r := clientDrainF fuel rest
      ⟨ev :: r.events, r.buffer,
        (match r.fileAnn with
         | some m => some m
         | none => ann), r.halted⟩

/-- The client's inner loop run to completion on a buffer. -/
def clientDrain (b : List Nat) : DrainOut := clientDrainF (b.length + 1) b

/-- State of the client receive loop plus the attached file consumer. -/
structure CMach where
  buffer : List Nat
  receiving : Bool
  fileSize : Int
  fileGot : Int
  halted : Bool
  deriving DecidableEq

/-- The receiver as it starts. -/
def initCMach : CMach := ⟨[], false, 0, 0, false⟩

/-- One outer-loop iteration of `TCPReceiver.run` on a received chunk: in
file mode the whole chunk goes to `write_chunk`, which writes
`min(len(chunk), filesize - bytes_received)` bytes and leaves file mode on
completion (discarding any excess and never touching `buffer`); otherwise
the chunk is appended to the buffer and the inner loop drains it. -/
def clientFeed (m : CMach) (chunk : List Nat) : List CEvent × CMach :=
  if m.halted then ([], m)
  else if m.receiving then
    let toWrite := min (chunk.length : Int) (m.fileSize - m.fileGot)
    let got' := m.fileGot + toWrite
    ([.fileData (pyTake toWrite chunk)],
      { m with receiving := decide (got' < m.fileSize), fileGot := got' })
  else
    let d := clientDrain (m.buffer ++ chunk)
    (d.events,
      match d.fileAnn with
      | some n => ⟨d.buffer, true, n, 0, d.halted⟩
      | none => ⟨d.buffer, false, m.fileSize, m.fileGot, d.halted⟩)

/-- The client receiver fed a sequence of received chunks. -/
def clientRun (chunks : List (List Nat)) : List CEvent × CMach :=
  chunks.foldl (fun acc c =>
    let r := clientFeed acc.2 c
    (acc.1 ++ r.1, r.2)) ([], initCMach)

/-- Claim C6, evaluated at the failing input: one received chunk holding
`FILE_INCOMING:alice:f.txt:12\n` followed immediately by the first 12 file
bytes, which happen to read `CHAT:bob:hi\n`.  The code dispatches the
`FILE_INCOMING`, sets the file flag — and then the inner loop keeps parsing
the same buffer, dispatching the file bytes as a `CHAT` command frame; the
file consumer receives zero bytes.  The claim requires that no further
command frame be dispatched and that all 12 bytes go to the consumer. -/
theorem C6_raw_mode_violation :
    (clientRun [[70, 73, 76, 69, 95, 73, 78, 67, 79, 77, 73, 78, 71, 58, 97, 108, 105, 99,
        101, 58, 102, 46, 116, 120, 116, 58, 49, 50, 10, 67, 72, 65, 84, 58, 98, 111, 98,
        58, 104, 105, 10]]).1
      = [CEvent.fileIncoming [97, 108, 105, 99, 101] [102, 46, 116, 120, 116] 12,
         CEvent.cmdDispatch [67, 72, 65, 84] [98, 111, 98, 58, 104, 105]] ∧
    (clientRun [[70, 73, 76, 69, 95, 73, 78, 67, 79, 77, 73, 78, 71, 58, 97, 108, 105, 99,
        101, 58, 102, 46, 116, 120, 116, 58, 49, 50, 10, 67, 72, 65, 84, 58, 98, 111, 98,
        58, 104, 105, 10]]).2.receiving = true ∧
    (clientRun [[70, 73, 76, 69, 95, 73, 78, 67, 79, 77, 73, 78, 71, 58, 97, 108, 105, 99,
        101, 58, 102, 46, 116, 120, 116, 58, 49, 50, 10, 67, 72, 65, 84, 58, 98, 111, 98,
        58, 104, 105, 10]]).2.fileGot = 0 ∧
    ((clientRun [[70, 73, 76, 69, 95, 73, 78, 67, 79, 77, 73, 78, 71, 58, 97, 108, 105, 99,
        101, 58, 102, 46, 116, 120, 116, 58, 49, 50, 10, 67, 72, 65, 84, 58, 98, 111, 98,
        58, 104, 105, 10]]).1.filter (fun ev =>
          match ev with
          | .fileData _ => true
          | _ => false)) = [] :=
  ⟨by decide, by decide, by decide, by decide⟩

end Mooz
